import Mathlib

/-!
Verification of the manifest-resolution and fragment-stitching engine of
linkedin-dl (src/linkedin/download.py), shallowly embedded in Lean 4.

Conventions used throughout this development:
* Python floats are modelled as exact rationals; every claim under study
  concerns control flow and exact arithmetic, not rounding behaviour.
* Network, media-decode and filesystem effects are modelled by explicit
  oracles and event traces.
* Fallible Python code (uncaught exceptions) is modelled with Option or
  Except; a top-level none models an uncaught exception or divergence.
-/

/-! ### trying_get (download.py, lines 91-108) -/

/-- Events observable during a run of trying_get: the n-th call of
requests.get (0-indexed) and a sleep of a given number of seconds. -/
inductive NetEv : Type
  | attempt (n : ℕ)
  | sleepFor (w : ℚ)
deriving DecidableEq, Repr

/-- Boolean recogniser for attempt events. -/
def isAttempt : NetEv → Bool
  | .attempt _ => true
  | _ => false

/-- Boolean recogniser for sleep events. -/
def isSleep : NetEv → Bool
  | .sleepFor _ => true
  | _ => false

/-- The loop of trying_get, embedded from the source.  `transport n` is the
outcome of the n-th requests.get call: `.ok r` is a response, `.error e` is
a requests ConnectionError or MaxRetryError.  `attempts` is the Python
local counting down from max_attempts (an arbitrary integer, as in
Python, where the loop guard is mere truthiness).  `fuel` bounds the
number of loop iterations; an outer none means the run needs more
iterations than fuel allows (the loop really can run unboundedly when
max_attempts is negative).  The returned pair records the event trace and
the Python outcome: `some (.ok r)` models returning the response,
`some (.error e)` models re-raising e, and an inner `none` models falling
out of the loop and implicitly returning Python None. -/
def tryingGetAux {ε ρ : Type} (transport : ℕ → Except ε ρ) (wait : ℚ) :
    ℕ → ℤ → ℕ → Option (List NetEv × Option (Except ε ρ))
  | _, _, 0 => none
  | n, attempts, fuel+1 =>
    if attempts = 0 then some ([], none)
    else
      match transport n with
      | .ok r => some ([.attempt n], some (.ok r))
      | .error e =>
        if attempts - 1 = 0 then some ([.attempt n], some (.error e))
        else
          match tryingGetAux transport wait (n+1) (attempts - 1) fuel with
          | none => none
          | some (evs, res) => some (.attempt n :: .sleepFor wait :: evs, res)

/-- trying_get(url, max_attempts, wait): run the retry loop starting at the
first attempt with the full attempt budget. -/
def tryingGet {ε ρ : Type} (transport : ℕ → Except ε ρ) (maxAttempts : ℤ)
    (wait : ℚ) (fuel : ℕ) : Option (List NetEv × Option (Except ε ρ)) :=
  tryingGetAux transport wait 0 maxAttempts fuel

/-- The event trace of a run of m attempts that all fail, starting at
attempt number start: attempts start, start+1, ..., start+m-1 with one
sleep between each consecutive pair and none after the last. -/
def failEvents (wait : ℚ) : ℕ → ℕ → List NetEv
  | _, 0 => []
  | start, m+1 =>
    NetEv.attempt start ::
      (if m = 0 then [] else NetEv.sleepFor wait :: failEvents wait (start+1) m)

lemma tryingGetAux_allFail {ε ρ : Type} (errs : ℕ → ε) (wait : ℚ) :
    ∀ m : ℕ, 1 ≤ m → ∀ start fuel : ℕ, m ≤ fuel →
      tryingGetAux (fun n => (Except.error (errs n) : Except ε ρ)) wait start (m : ℤ) fuel
        = some (failEvents wait start m, some (.error (errs (start + m - 1)))) := by
  intro m
  induction m with
  | zero => omega
  | succ m ih =>
    intro _ start fuel hf
    obtain ⟨f, rfl⟩ : ∃ f, fuel = f + 1 := ⟨fuel - 1, by omega⟩
    rcases Nat.eq_zero_or_pos m with hm0 | hmpos
    · subst hm0
      simp [tryingGetAux, failEvents]
    · have h1 : ((m + 1 : ℕ) : ℤ) ≠ 0 := by push_cast; omega
      have h2 : ((m + 1 : ℕ) : ℤ) - 1 ≠ 0 := by push_cast; omega
      have hcast : ((m + 1 : ℕ) : ℤ) - 1 = ((m : ℕ) : ℤ) := by push_cast; ring
      have hrec := ih hmpos (start + 1) f (by omega)
      simp only [tryingGetAux, if_neg h1, if_neg h2, hcast, hrec]
      have hne : m ≠ 0 := by omega
      simp [failEvents, hne]

lemma failEvents_countP_attempt (wait : ℚ) :
    ∀ m start, (failEvents wait start m).countP isAttempt = m := by
  intro m
  induction m with
  | zero => intro start; simp [failEvents]
  | succ m ih =>
    intro start
    rcases Nat.eq_zero_or_pos m with hm0 | hmpos
    · subst hm0; simp [failEvents, List.countP_cons, isAttempt]
    · have hne : m ≠ 0 := by omega
      simp [failEvents, hne, List.countP_cons, isAttempt, isSleep, ih]

lemma failEvents_countP_sleep (wait : ℚ) :
    ∀ m start, (failEvents wait start m).countP isSleep = m - 1 := by
  intro m
  induction m with
  | zero => intro start; simp [failEvents]
  | succ m ih =>
    intro start
    rcases Nat.eq_zero_or_pos m with hm0 | hmpos
    · subst hm0; simp [failEvents, List.countP_cons, isSleep]
    · have hne : m ≠ 0 := by omega
      simp [failEvents, hne, List.countP_cons, isAttempt, isSleep, ih]
      omega

lemma failEvents_sleep_mem (wait : ℚ) :
    ∀ m start w, NetEv.sleepFor w ∈ failEvents wait start m → w = wait := by
  intro m
  induction m with
  | zero => intro start w hw; simp [failEvents] at hw
  | succ m ih =>
    intro start w hw
    rcases Nat.eq_zero_or_pos m with hm0 | hmpos
    · subst hm0; simp [failEvents] at hw
    · have hne : m ≠ 0 := by omega
      simp [failEvents, hne] at hw
      rcases hw with hw | hw
      · exact hw
      · exact ih (start + 1) w hw

lemma failEvents_getLast (wait : ℚ) :
    ∀ m start, 1 ≤ m →
      (failEvents wait start m).getLast? = some (.attempt (start + m - 1)) := by
  intro m
  induction m with
  | zero => omega
  | succ m ih =>
    intro start _
    rcases Nat.eq_zero_or_pos m with hm0 | hmpos
    · subst hm0; simp [failEvents]
    · have hne : m ≠ 0 := by omega
      have hrec := ih (start + 1) hmpos
      have harith : start + 1 + m - 1 = start + (m + 1) - 1 := by omega
      rw [harith] at hrec
      simp [failEvents, hne, List.getLast?_cons, hrec]

/-- C3: for max_attempts at least 1, if every attempt raises a transient
connection error, trying_get makes exactly max_attempts attempts, sleeps
wait seconds between consecutive attempts (exactly max_attempts - 1
sleeps, the trace ends with an attempt, not a sleep), and re-raises the
error raised by the last attempt itself. -/
theorem tryingGet_exhaustion {ε ρ : Type} (errs : ℕ → ε) (m : ℕ) (hm : 1 ≤ m)
    (wait : ℚ) (fuel : ℕ) (hf : m ≤ fuel) :
    tryingGet (fun n => (Except.error (errs n) : Except ε ρ)) (m : ℤ) wait fuel
        = some (failEvents wait 0 m, some (.error (errs (m - 1))))
      ∧ (failEvents wait 0 m).countP isAttempt = m
      ∧ (failEvents wait 0 m).countP isSleep = m - 1
      ∧ (∀ w, NetEv.sleepFor w ∈ failEvents wait 0 m → w = wait)
      ∧ (failEvents wait 0 m).getLast? = some (.attempt (m - 1)) := by
  refine ⟨?_, failEvents_countP_attempt wait m 0, failEvents_countP_sleep wait m 0,
    fun w hw => failEvents_sleep_mem wait m 0 w hw, ?_⟩
  · have h := @tryingGetAux_allFail ε ρ errs wait m hm 0 fuel hf
    simpa [tryingGet] using h
  · simpa using failEvents_getLast wait m 0 hm

/-- Witness for C3 at max_attempts = 2, wait = 5. -/
theorem tryingGet_exhaustion_witness :
    tryingGet (fun n => (Except.error n : Except ℕ Unit)) 2 5 2
        = some (failEvents 5 0 2, some (.error 1))
      ∧ failEvents 5 0 2 = [.attempt 0, .sleepFor 5, .attempt 1] := by
  refine ⟨?_, by simp [failEvents]⟩
  exact (@tryingGet_exhaustion ℕ Unit (fun n => n) 2 (by decide) 5 2 (by decide)).1

lemma tryingGetAux_recovery {ε ρ : Type} (tr : ℕ → Except ε ρ) (r : ρ) (wait : ℚ) :
    ∀ (k start : ℕ) (a : ℤ) (fuel : ℕ), (k : ℤ) < a → k + 1 ≤ fuel →
      (∀ j, j < k → ∃ e, tr (start + j) = .error e) → tr (start + k) = .ok r →
      ∃ evs, tryingGetAux tr wait start a fuel = some (evs, some (.ok r)) := by
  intro k
  induction k with
  | zero =>
    intro start a fuel ha hfuel _ hok
    obtain ⟨f, rfl⟩ : ∃ f, fuel = f + 1 := ⟨fuel - 1, by omega⟩
    have ha0 : a ≠ 0 := by omega
    simp only [Nat.add_zero] at hok
    exact ⟨[.attempt start], by simp [tryingGetAux, ha0, hok]⟩
  | succ k ih =>
    intro start a fuel ha hfuel hfail hok
    obtain ⟨f, rfl⟩ : ∃ f, fuel = f + 1 := ⟨fuel - 1, by omega⟩
    have ha0 : a ≠ 0 := by omega
    have ha1 : a - 1 ≠ 0 := by omega
    obtain ⟨e, he⟩ := hfail 0 (by omega)
    simp only [Nat.add_zero] at he
    have hfail' : ∀ j, j < k → ∃ e, tr (start + 1 + j) = .error e := by
      intro j hj
      have := hfail (j + 1) (by omega)
      simpa [Nat.add_comm, Nat.add_assoc, Nat.add_left_comm] using this
    have hok' : tr (start + 1 + k) = .ok r := by
      have : start + (k + 1) = start + 1 + k := by omega
      rwa [this] at hok
    obtain ⟨evs, hevs⟩ := ih (start + 1) (a - 1) f (by omega) (by omega) hfail' hok'
    exact ⟨.attempt start :: .sleepFor wait :: evs, by
      simp [tryingGetAux, ha0, ha1, he, hevs]⟩

/-- C7: for max_attempts at least 1 and k strictly below max_attempts, if
the transport fails with a transient connection error on the first k
attempts and then succeeds, trying_get returns that success response and
raises no error. -/
theorem tryingGet_recovery {ε ρ : Type} (tr : ℕ → Except ε ρ) (r : ρ)
    (m k : ℕ) (hm : 1 ≤ m) (hk : k < m) (wait : ℚ) (fuel : ℕ) (hf : k + 1 ≤ fuel)
    (hfail : ∀ n, n < k → ∃ e, tr n = .error e) (hok : tr k = .ok r) :
    ∃ evs, tryingGet tr (m : ℤ) wait fuel = some (evs, some (.ok r)) := by
  have h := tryingGetAux_recovery tr r wait k 0 (m : ℤ) fuel (by omega) hf
    (by intro j hj; simpa using hfail j hj) (by simpa using hok)
  simpa [tryingGet] using h

/-- Witness for C7: two transient failures, success on the third of five
allowed attempts. -/
theorem tryingGet_recovery_witness :
    ∃ evs,
      tryingGet (fun n => if n < 2 then (Except.error n : Except ℕ ℕ) else .ok 99)
        5 7 3 = some (evs, some (.ok 99)) :=
  tryingGet_recovery (fun n => if n < 2 then (Except.error n : Except ℕ ℕ) else .ok 99)
    99 5 2 (by decide) (by decide) 7 3 (by decide)
    (by intro n hn; exact ⟨n, by simp [hn]⟩) (by simp)

/-- C9 counterexample: with max_attempts = -1, a non-positive value, and a
transport that succeeds at once, trying_get does perform a network attempt
and does return a response; so it is not the case that every non-positive
max_attempts performs no attempt and produces no response. -/
theorem tryingGet_negative_counterexample :
    tryingGet (fun _ => (Except.ok 0 : Except Unit ℕ)) (-1) 0 1
        = some ([.attempt 0], some (.ok 0))
      ∧ ([NetEv.attempt 0] : List NetEv) ≠ [] := by
  exact ⟨rfl, by simp⟩

/-- C9 amended: for max_attempts exactly 0, the loop guard is immediately
false, so trying_get performs no network attempt, sleeps never, and
returns Python None instead of a response. -/
theorem tryingGet_zero_attempts {ε ρ : Type} (tr : ℕ → Except ε ρ) (wait : ℚ)
    (fuel : ℕ) (hf : 1 ≤ fuel) :
    tryingGet tr 0 wait fuel = some ([], none) := by
  obtain ⟨f, rfl⟩ : ∃ f, fuel = f + 1 := ⟨fuel - 1, by omega⟩
  simp [tryingGet, tryingGetAux]

/-- Witness for the amended C9 at a concrete transport. -/
theorem tryingGet_zero_attempts_witness :
    tryingGet (fun _ => (Except.ok 3 : Except Unit ℕ)) 0 2 1 = some ([], none) :=
  tryingGet_zero_attempts (fun _ => (Except.ok 3 : Except Unit ℕ)) 2 1 (by decide)

/-! ### The timeline stitcher (Downloader._make_frame, lines 146-159, and
Downloader._get_next_clip, lines 161-180) -/

/-- The cursor state of the stitcher: self.clip (the index of the resident
fragment) and self.pos (the global start time of the resident fragment). -/
structure Cursor where
  clip : ℕ
  pos : ℚ
deriving DecidableEq, Repr

/-- Resource events produced while stitching. close and removeTmp model
closing the resident moviepy clip and deleting its temporary mp4 decode
artifact; fetchFrag and decodeFrag model downloading a fragment's bytes
and opening them as a clip inside _get_next_clip. -/
inductive StitchEvent : Type
  | close (i : ℕ)
  | removeTmp (i : ℕ)
  | fetchFrag (i : ℕ)
  | decodeFrag (i : ℕ)
deriving DecidableEq, Repr

/-- The events emitted when _make_frame advances from fragment j to
fragment j+1, in source order: close the resident clip, delete its
temporary file, then fetch and decode the next fragment. -/
def advBlock (j : ℕ) : List StitchEvent :=
  [.close j, .removeTmp j, .fetchFrag (j+1), .decodeFrag (j+1)]

/-- The events emitted by Downloader.__init__ when it loads fragment 0. -/
def initEvents : List StitchEvent := [.fetchFrag 0, .decodeFrag 0]

/-- One call of Downloader._make_frame at global time t, embedded from the
source.  ds lists the fragments' durations; the resident clip's decoded
duration is modelled as equal to its catalog duration, as the spec does.
The source advances with an if, not a while, and only when
current_clip.duration is strictly smaller than t - pos.  Returns the new
cursor, the emitted resource events, and the pair (index of the fragment
that supplies the frame, local time passed to get_frame).  none models
the uncaught IndexError raised by self.paths[self.clip] when the cursor
advances past the last fragment. -/
def makeFrame (ds : List ℚ) (c : Cursor) (t : ℚ) :
    Option (Cursor × List StitchEvent × ℕ × ℚ) :=
  match ds[c.clip]? with
  | none => none
  | some d =>
    if d < t - c.pos then
      match ds[c.clip + 1]? with
      | none => none
      | some _ =>
        some (⟨c.clip + 1, c.pos + d⟩, advBlock c.clip, c.clip + 1, t - (c.pos + d))
    else some (c, [], c.clip, t - c.pos)

/-- A sequence of _make_frame calls at the given times, accumulating the
emitted events and the produced (fragment index, local time) pairs. -/
def runFrames (ds : List ℚ) : Cursor → List ℚ → Option (Cursor × List StitchEvent × List (ℕ × ℚ))
  | c, [] => some (c, [], [])
  | c, t :: ts =>
    match makeFrame ds c t with
    | none => none
    | some (c', evs, fr) =>
      match runFrames ds c' ts with
      | none => none
      | some (c'', evs', frs) => some (c'', evs ++ evs', fr :: frs)

/-- The successive cursor states (including the initial one) reached by a
sequence of _make_frame calls. -/
def cursorTrace (ds : List ℚ) : Cursor → List ℚ → Option (List Cursor)
  | c, [] => some [c]
  | c, t :: ts =>
    match makeFrame ds c t with
    | none => none
    | some (c', _, _) => (cursorTrace ds c' ts).map (fun l => c :: l)

lemma makeFrame_cases {ds : List ℚ} {c : Cursor} {t : ℚ} {c' : Cursor}
    {evs : List StitchEvent} {fr : ℕ × ℚ}
    (h : makeFrame ds c t = some (c', evs, fr)) :
    (c' = c ∧ evs = [] ∧ c.clip < ds.length ∧ fr = (c.clip, t - c.pos))
      ∨ (c'.clip = c.clip + 1 ∧ evs = advBlock c.clip ∧ c'.clip < ds.length
          ∧ (∃ d, ds[c.clip]? = some d ∧ c'.pos = c.pos + d ∧ d < t - c.pos)
          ∧ fr = (c.clip + 1, t - c'.pos)) := by
  cases hget : ds[c.clip]? with
  | none => simp [makeFrame, hget] at h
  | some d =>
    by_cases hlt : d < t - c.pos
    · cases hget2 : ds[c.clip + 1]? with
      | none => simp [makeFrame, hget, hget2, if_pos hlt] at h
      | some d2 =>
        simp only [makeFrame, hget, hget2, if_pos hlt, Option.some.injEq,
          Prod.mk.injEq] at h
        obtain ⟨hc1, hc2, hc3⟩ := h
        right
        subst hc1
        refine ⟨rfl, hc2.symm, ?_, ⟨d, rfl, rfl, hlt⟩, hc3.symm⟩
        exact (List.getElem?_eq_some_iff.mp hget2).1
    · simp only [makeFrame, hget, if_neg hlt, Option.some.injEq, Prod.mk.injEq] at h
      left
      exact ⟨h.1.symm, h.2.1.symm, (List.getElem?_eq_some_iff.mp hget).1, h.2.2.symm⟩

lemma cursorTrace_head {ds : List ℚ} {c : Cursor} {ts : List ℚ} {trace : List Cursor}
    (h : cursorTrace ds c ts = some trace) : ∃ l, trace = c :: l := by
  cases ts with
  | nil =>
    simp only [cursorTrace, Option.some.injEq] at h
    exact ⟨[], h.symm⟩
  | cons t ts =>
    cases hmf : makeFrame ds c t with
    | none => simp [cursorTrace, hmf] at h
    | some res =>
      obtain ⟨c', evs, fr⟩ := res
      simp only [cursorTrace, hmf, Option.map_eq_some'] at h
      obtain ⟨l, _, hl⟩ := h
      exact ⟨l, hl.symm⟩

lemma cursorTrace_inv_aux (ds : List ℚ) :
    ∀ (ts : List ℚ) (c : Cursor) (trace : List Cursor),
      c.pos = (ds.take c.clip).sum →
      cursorTrace ds c ts = some trace →
      trace.Chain' (fun a b => a.clip ≤ b.clip)
        ∧ ∀ x ∈ trace, x.pos = (ds.take x.clip).sum := by
  intro ts
  induction ts with
  | nil =>
    intro c trace hc h
    simp only [cursorTrace, Option.some.injEq] at h
    subst h
    simp [hc]
  | cons t ts ih =>
    intro c trace hc h
    cases hmf : makeFrame ds c t with
    | none => simp [cursorTrace, hmf] at h
    | some res =>
      obtain ⟨c', evs, fr⟩ := res
      simp only [cursorTrace, hmf, Option.map_eq_some'] at h
      obtain ⟨l, hl, hlt⟩ := h
      have hstep := makeFrame_cases hmf
      have hc' : c'.pos = (ds.take c'.clip).sum := by
        rcases hstep with ⟨h1, _, _, _⟩ | ⟨h1, _, _, ⟨d, hd, hp, _⟩, _⟩
        · rw [h1]; exact hc
        · obtain ⟨hlen, hval⟩ := List.getElem?_eq_some_iff.mp hd
          rw [hp, hc, h1, List.sum_take_succ ds c.clip hlen, hval]
      have hclip : c.clip ≤ c'.clip := by
        rcases hstep with ⟨h1, _, _, _⟩ | ⟨h1, _, _, _, _⟩
        · rw [h1]
        · omega
      obtain ⟨hch, hmem⟩ := ih c' l hc' hl
      subst hlt
      constructor
      · obtain ⟨l', rfl⟩ := cursorTrace_head hl
        exact List.chain'_cons.mpr ⟨hclip, hch⟩
      · intro x hx
        rcases List.mem_cons.mp hx with rfl | hx
        · exact hc
        · exact hmem x hx

/-- C5: across every sequence of frame requests with non-decreasing times,
the cursor invariant holds: the resident fragment index never decreases
(no earlier fragment is revisited or re-fetched), and self.pos, the
resident fragment's start-time accumulator, always equals the sum of the
durations of the fragments preceding the resident one. -/
theorem cursor_invariant (ds ts : List ℚ) (trace : List Cursor)
    (hts : ts.Chain' (fun a b => a ≤ b))
    (h : cursorTrace ds ⟨0, 0⟩ ts = some trace) :
    trace.Pairwise (fun a b => a.clip ≤ b.clip)
      ∧ ∀ x ∈ trace, x.pos = (ds.take x.clip).sum := by
  haveI : IsTrans Cursor (fun a b => a.clip ≤ b.clip) :=
    ⟨fun _ _ _ hab hbc => le_trans hab hbc⟩
  have h0 : (Cursor.mk 0 0).pos = (ds.take (Cursor.mk 0 0).clip).sum := by simp
  have := cursorTrace_inv_aux ds ts ⟨0, 0⟩ trace h0 h
  exact ⟨List.chain'_iff_pairwise.mp this.1, this.2⟩

/-- Witness for C5: durations 2, 3 and requests at times 1 then 4, which
advance the cursor once. -/
theorem cursor_invariant_witness :
    cursorTrace [(2:ℚ), 3] ⟨0, 0⟩ [1, 4] = some [⟨0, 0⟩, ⟨0, 0⟩, ⟨1, 2⟩]
      ∧ ([⟨0, 0⟩, ⟨0, 0⟩, (⟨1, 2⟩ : Cursor)]).Pairwise (fun a b => a.clip ≤ b.clip)
      ∧ ∀ x ∈ [⟨0, 0⟩, ⟨0, 0⟩, (⟨1, 2⟩ : Cursor)],
          x.pos = (([(2:ℚ), 3]).take x.clip).sum := by
  have htrace : cursorTrace [(2:ℚ), 3] ⟨0, 0⟩ [1, 4] = some [⟨0, 0⟩, ⟨0, 0⟩, ⟨1, 2⟩] := by
    norm_num [cursorTrace, makeFrame]
  have h := cursor_invariant [(2:ℚ), 3] [1, 4] [⟨0, 0⟩, ⟨0, 0⟩, ⟨1, 2⟩]
    (by norm_num [List.chain'_cons]) htrace
  exact ⟨htrace, h.1, h.2⟩

/-- The per-request side conditions under which the claim's unique-index
formula describes _make_frame: each request's target fragment i satisfies
the bracketing sums, is in range, and either stays on the resident
fragment r or advances exactly one step with t strictly past the crossed
boundary. -/
def okSteps (ds : List ℚ) : ℕ → List ℚ → List ℕ → Prop
  | _, [], [] => True
  | r, t :: ts, i :: is =>
      (i = r ∨ (i = r + 1 ∧ (ds.take i).sum < t))
        ∧ (ds.take i).sum ≤ t ∧ t < (ds.take (i + 1)).sum ∧ i < ds.length
        ∧ okSteps ds i ts is
  | _, _, _ => False

lemma runFrames_okSteps (ds : List ℚ) :
    ∀ (ts : List ℚ) (is : List ℕ) (r : ℕ), r < ds.length →
      okSteps ds r ts is →
      ∃ c' evs, runFrames ds ⟨r, (ds.take r).sum⟩ ts
        = some (c', evs, List.zipWith (fun i t => (i, t - (ds.take i).sum)) is ts) := by
  intro ts
  induction ts with
  | nil =>
    intro is r hr hok
    cases is with
    | nil => exact ⟨⟨r, (ds.take r).sum⟩, [], by simp [runFrames]⟩
    | cons i is => exact absurd hok (by simp [okSteps])
  | cons t ts ih =>
    intro is r hr hok
    cases is with
    | nil => exact absurd hok (by simp [okSteps])
    | cons i is =>
      simp only [okSteps] at hok
      obtain ⟨hstep, hle, hlt, hilen, hrest⟩ := hok
      have hgetr : ds[r]? = some ds[r] := List.getElem?_eq_getElem hr
      have hsum : (ds.take (r + 1)).sum = (ds.take r).sum + ds[r] :=
        List.sum_take_succ ds r hr
      rcases hstep with rfl | ⟨rfl, hstrict⟩
      · have hnolt : ¬ (ds[i] < t - (ds.take i).sum) := by
          rw [hsum] at hlt
          intro hcon
          linarith
        obtain ⟨c', evs, hrec⟩ := ih is i hr hrest
        refine ⟨c', evs, ?_⟩
        simp only [runFrames, makeFrame, hgetr, if_neg hnolt, hrec]
        simp [List.zipWith]
      · have hadv : ds[r] < t - (ds.take r).sum := by linarith [hsum, hstrict]
        have hget2 : ds[r + 1]? = some ds[r + 1] := List.getElem?_eq_getElem hilen
        obtain ⟨c', evs, hrec⟩ := ih is (r + 1) hilen hrest
        refine ⟨c', advBlock r ++ evs, ?_⟩
        simp only [runFrames, makeFrame, hgetr, if_pos hadv, hget2, hsum.symm]
        simp only [hrec]
        simp [List.zipWith]

/-- C1 amended: for every catalog of positive fragment durations and every
strictly increasing sequence of request times, provided additionally that
each request crosses at most one fragment boundary (its unique target
index i with sum-before less-or-equal t less-than sum-through exceeds the
previous target by at most one) and that t lies strictly past the crossed
boundary whenever it advances, the frame at time t is supplied by that
unique fragment i at local time t minus the sum of durations before i.
Without those extra conditions the claim fails: the source advances with
an if rather than a while, one fragment per call at most, and only on a
strict inequality. -/
theorem frame_unique_index (ds ts : List ℚ) (is : List ℕ)
    (hpos : ∀ d ∈ ds, 0 < d) (hmono : ts.Chain' (fun a b => a < b))
    (hne : ds ≠ []) (hok : okSteps ds 0 ts is) :
    ∃ c' evs, runFrames ds ⟨0, 0⟩ ts
      = some (c', evs, List.zipWith (fun i t => (i, t - (ds.take i).sum)) is ts) := by
  have h0 : (0 : ℕ) < ds.length := List.length_pos.mpr hne
  have h := runFrames_okSteps ds ts is 0 h0 hok
  simpa using h

/-- Witness for the amended C1: durations 1, 1 and requests at 1/2 (inside
fragment 0) and 3/2 (strictly inside fragment 1). -/
theorem frame_unique_index_witness :
    ∃ c' evs, runFrames [(1:ℚ), 1] ⟨0, 0⟩ [1/2, 3/2]
      = some (c', evs,
          List.zipWith (fun i t => (i, t - (([(1:ℚ), 1]).take i).sum)) [0, 1] [1/2, 3/2]) := by
  refine frame_unique_index [(1:ℚ), 1] [1/2, 3/2] [0, 1] ?_ ?_ (by simp) ?_
  · intro d hd
    rcases List.mem_cons.mp hd with rfl | hd
    · norm_num
    · simp at hd; rw [hd]; norm_num
  · simp [List.chain'_cons]; norm_num
  · simp only [okSteps]
    norm_num

/-- C1 counterexample: with fragment durations 1, 1, 1 and the single
(trivially strictly increasing) request time 5/2 inside [0, 3), the unique
index i with sum-before at most 5/2 and 5/2 below sum-through is 2, at
local time 1/2; but the code, which advances at most one fragment per
call, serves the frame from fragment 1 at local time 3/2. -/
theorem frame_skip_counterexample :
    runFrames [(1:ℚ), 1, 1] ⟨0, 0⟩ [5/2] = some (⟨1, 1⟩, advBlock 0, [(1, 3/2)])
      ∧ (0 ≤ (5/2:ℚ) ∧ (5/2:ℚ) < ([(1:ℚ), 1, 1]).sum)
      ∧ (([(1:ℚ), 1, 1].take 2).sum ≤ 5/2 ∧ (5/2:ℚ) < ([(1:ℚ), 1, 1].take 3).sum)
      ∧ (1 ≠ 2)
      ∧ ((3/2:ℚ) ≠ 5/2 - ([(1:ℚ), 1, 1].take 2).sum) := by
  refine ⟨?_, ⟨by norm_num, by norm_num⟩, ⟨by norm_num, by norm_num⟩,
    by norm_num, by norm_num⟩
  norm_num [runFrames, makeFrame, advBlock]

/-- Boolean recogniser for decode events. -/
def isDecodeEv : StitchEvent → Bool
  | .decodeFrag _ => true
  | _ => false

/-- Boolean recogniser for close events. -/
def isCloseEv : StitchEvent → Bool
  | .close _ => true
  | _ => false

/-- Number of decoded fragments still held after a trace of events:
decoding acquires a resident fragment, closing releases it. -/
def heldCount (evs : List StitchEvent) : ℤ :=
  (evs.countP isDecodeEv : ℤ) - (evs.countP isCloseEv : ℤ)

lemma runFrames_events (ds : List ℚ) :
    ∀ (ts : List ℚ) (c c' : Cursor) (evs : List StitchEvent) (frs : List (ℕ × ℚ)),
      runFrames ds c ts = some (c', evs, frs) →
      c.clip ≤ c'.clip
        ∧ evs = ((List.range' c.clip (c'.clip - c.clip)).map advBlock).join := by
  intro ts
  induction ts with
  | nil =>
    intro c c' evs frs h
    simp only [runFrames, Option.some.injEq, Prod.mk.injEq] at h
    obtain ⟨h1, h2, _⟩ := h
    subst h1
    simp [← h2]
  | cons t ts ih =>
    intro c c' evs frs h
    cases hmf : makeFrame ds c t with
    | none => simp [runFrames, hmf] at h
    | some res =>
      obtain ⟨c₁, evs₁, fr⟩ := res
      cases hrun : runFrames ds c₁ ts with
      | none => simp [runFrames, hmf, hrun] at h
      | some res2 =>
        obtain ⟨c₂, evs₂, frs₂⟩ := res2
        simp only [runFrames, hmf, hrun, Option.some.injEq, Prod.mk.injEq] at h
        obtain ⟨hc, hevs, _⟩ := h
        obtain ⟨hle, hevs₂⟩ := ih c₁ c₂ evs₂ frs₂ hrun
        rw [← hc]
        rcases makeFrame_cases hmf with ⟨h1, h2, _, _⟩ | ⟨h1, h2, _, _, _⟩
        · subst h1
          refine ⟨hle, ?_⟩
          rw [← hevs, h2, hevs₂]
          simp
        · refine ⟨by omega, ?_⟩
          rw [← hevs, h2, hevs₂, h1]
          obtain ⟨n, hn⟩ : ∃ n, c₂.clip - c.clip = n + 1 := ⟨c₂.clip - c.clip - 1, by omega⟩
          have hn2 : c₂.clip - (c.clip + 1) = n := by omega
          rw [hn, List.range'_succ]
          simp only [List.map_cons, List.join_cons, hn2]

lemma prefix_blocks_bound :
    ∀ (L : List ℕ) (p : List StitchEvent),
      p <+: (L.map advBlock).join → heldCount p ≤ 0 := by
  intro L
  induction L with
  | nil =>
    intro p hp
    simp only [List.map_nil, List.join_nil, List.prefix_nil] at hp
    simp [hp, heldCount]
  | cons j L ih =>
    intro p hp
    simp only [List.map_cons, List.join_cons, advBlock, List.cons_append,
      List.nil_append] at hp
    rcases List.prefix_cons_iff.mp hp with rfl | ⟨t1, rfl, ht1⟩
    · simp [heldCount]
    · rcases List.prefix_cons_iff.mp ht1 with rfl | ⟨t2, rfl, ht2⟩
      · simp [heldCount, List.countP_cons, isDecodeEv, isCloseEv]
      · rcases List.prefix_cons_iff.mp ht2 with rfl | ⟨t3, rfl, ht3⟩
        · simp [heldCount, List.countP_cons, isDecodeEv, isCloseEv]
        · rcases List.prefix_cons_iff.mp ht3 with rfl | ⟨t4, rfl, ht4⟩
          · simp [heldCount, List.countP_cons, isDecodeEv, isCloseEv]
          · have hb := ih t4 ht4
            simp [heldCount, List.countP_cons, isDecodeEv, isCloseEv] at hb ⊢
            omega

lemma prefix_init_blocks_bound (L : List ℕ) (p : List StitchEvent)
    (hp : p <+: initEvents ++ (L.map advBlock).join) : heldCount p ≤ 1 := by
  simp only [initEvents, List.cons_append, List.nil_append] at hp
  rcases List.prefix_cons_iff.mp hp with rfl | ⟨t1, rfl, ht1⟩
  · simp [heldCount]
  · rcases List.prefix_cons_iff.mp ht1 with rfl | ⟨t2, rfl, ht2⟩
    · simp [heldCount, List.countP_cons, isDecodeEv, isCloseEv]
    · have hb := prefix_blocks_bound L t2 ht2
      simp [heldCount, List.countP_cons, isDecodeEv, isCloseEv] at hb ⊢
      omega

/-- C6: at most one fragment's decoded resources are ever held: the events
of any run decompose into one block per advance, each of which closes the
resident clip and deletes its temporary decode artifact before fetching
and decoding the next fragment, and every prefix of the full trace
(including the initial load of fragment 0) holds at most one decoded
fragment. -/
theorem single_residency (ds ts : List ℚ) (c' : Cursor) (evs : List StitchEvent)
    (frs : List (ℕ × ℚ)) (h : runFrames ds ⟨0, 0⟩ ts = some (c', evs, frs)) :
    evs = ((List.range' 0 c'.clip).map advBlock).join
      ∧ ∀ p, p <+: initEvents ++ evs → heldCount p ≤ 1 := by
  obtain ⟨_, hevs⟩ := runFrames_events ds ts ⟨0, 0⟩ c' evs frs h
  have h0 : c'.clip - 0 = c'.clip := by omega
  rw [h0] at hevs
  refine ⟨hevs, fun p hp => ?_⟩
  apply prefix_init_blocks_bound (List.range' 0 c'.clip) p
  rwa [← hevs]

/-- Witness for C6: durations 1, 2 with requests at 1/2 and 3/2, advancing
once. -/
theorem single_residency_witness :
    runFrames [(1:ℚ), 2] ⟨0, 0⟩ [1/2, 3/2]
        = some (⟨1, 1⟩, advBlock 0, [(0, 1/2), (1, 1/2)])
      ∧ advBlock 0 = ((List.range' 0 (Cursor.mk 1 1).clip).map advBlock).join
      ∧ ∀ p, p <+: initEvents ++ advBlock 0 → heldCount p ≤ 1 := by
  have hrun : runFrames [(1:ℚ), 2] ⟨0, 0⟩ [1/2, 3/2]
      = some (⟨1, 1⟩, advBlock 0, [(0, 1/2), (1, 1/2)]) := by
    norm_num [runFrames, makeFrame, advBlock]
  have h := single_residency [(1:ℚ), 2] [1/2, 3/2] ⟨1, 1⟩ (advBlock 0)
    [(0, 1/2), (1, 1/2)] hrun
  exact ⟨hrun, h.1, h.2⟩

/-- C10: when the resident fragment is the last catalog entry and the
requested time lies beyond its end (t minus pos strictly exceeds its
duration), _make_frame advances past the catalog and the indexing
self.paths[self.clip] raises IndexError instead of returning a frame
(modelled by none). -/
theorem makeFrame_past_end (ds : List ℚ) (c : Cursor) (t d : ℚ)
    (hlast : c.clip + 1 = ds.length) (hd : ds[c.clip]? = some d)
    (ht : d < t - c.pos) :
    makeFrame ds c t = none := by
  have hnone : ds[c.clip + 1]? = none := List.getElem?_eq_none_iff.mpr (by omega)
  simp [makeFrame, hd, if_pos ht, hnone]

/-- Witness for C10: a one-fragment catalog of duration 1 and a request at
time 2. -/
theorem makeFrame_past_end_witness :
    ((Cursor.mk 0 0).clip + 1 = [(1:ℚ)].length)
      ∧ ([(1:ℚ)])[(Cursor.mk 0 0).clip]? = some 1
      ∧ ((1:ℚ) < 2 - (Cursor.mk 0 0).pos)
      ∧ makeFrame [(1:ℚ)] ⟨0, 0⟩ 2 = none := by
  refine ⟨by simp, by norm_num, by norm_num, ?_⟩
  exact makeFrame_past_end [(1:ℚ)] ⟨0, 0⟩ 2 1 (by simp) (by norm_num) (by norm_num)

/-! ### String utilities shared by the parsing code -/

/-- Python s.startswith(pat) on character lists: pat is a leading run. -/
def leadsWith : List Char → List Char → Bool
  | [], _ => true
  | _ :: _, [] => false
  | p :: ps, c :: cs => (p == c) && leadsWith ps cs

/-- Python pat in s (substring containment) on character lists. -/
def hasSub (pat : List Char) : List Char → Bool
  | [] => leadsWith pat []
  | c :: cs => leadsWith pat (c :: cs) || hasSub pat cs

/-- Python s.startswith(pat) on strings. -/
def strStarts (s pat : String) : Bool := leadsWith pat.toList s.toList

/-- Python pat in s on strings. -/
def strHas (s pat : String) : Bool := hasSub pat.toList s.toList

lemma leadsWith_iff : ∀ (p s : List Char), leadsWith p s = true ↔ ∃ t, s = p ++ t := by
  intro p
  induction p with
  | nil => intro s; simp [leadsWith]
  | cons a p ih =>
    intro s
    cases s with
    | nil => simp [leadsWith]
    | cons c cs =>
      simp only [leadsWith, Bool.and_eq_true, beq_iff_eq, ih cs]
      constructor
      · rintro ⟨rfl, t, rfl⟩
        exact ⟨t, rfl⟩
      · rintro ⟨t, h⟩
        injection h with h1 h2
        exact ⟨h1.symm, t, h2⟩

lemma strStarts_iff (s pat : String) :
    strStarts s pat = true ↔ ∃ t, s.toList = pat.toList ++ t := by
  exact leadsWith_iff pat.toList s.toList

lemma leadsWith_of_append (p : List Char) : ∀ t, leadsWith p (p ++ t) = true :=
  fun t => (leadsWith_iff p (p ++ t)).mpr ⟨t, rfl⟩

lemma leadsWith_mono {a b s : List Char} (h : leadsWith (a ++ b) s = true) :
    leadsWith a s = true := by
  obtain ⟨t, rfl⟩ := (leadsWith_iff _ _).mp h
  exact (leadsWith_iff _ _).mpr ⟨b ++ t, by simp⟩

/-! ### Downloader.__init__ catalog construction (lines 124-137) -/

/-- Numeric value of a digit character. -/
def charDigit (c : Char) : Option ℕ :=
  if c.isDigit then some (c.toNat - 48) else none

/-- Python int(s) on an unsigned all-digit string in character-list form;
none models the ValueError raised on malformed input. -/
def digitsToNat (cs : List Char) : Option ℕ :=
  if cs.isEmpty then none
  else cs.foldlM (fun a c => (charDigit c).map (fun d => a * 10 + d)) 0

/-- Python text.replace(chr(13), empty): remove every carriage return. -/
def stripCR (s : String) : String := (s.toList.filter (fun c => c ≠ '\r')).asString

/-- Python text.split(chr(10)) on character lists: split at every newline,
keeping empty pieces, as str.split with an explicit separator does. -/
def splitLinesList : List Char → List (List Char)
  | [] => [[]]
  | c :: rest =>
    if c = '\n' then [] :: splitLinesList rest
    else
      match splitLinesList rest with
      | [] => [[c]]
      | l :: ls => (c :: l) :: ls

/-- The lines of the fetched manifest text, as the source computes them:
carriage returns removed, then split on newlines. -/
def manifestLines (text : String) : List String :=
  (splitLinesList (stripCR text).toList).map List.asString

/-- Python re.sub applied with the pattern Manifest-dot-star and an empty
replacement: cut from the first occurrence of pat to the end. -/
def cutFrom (pat : List Char) : List Char → List Char
  | [] => []
  | c :: cs => if leadsWith pat (c :: cs) then [] else c :: cutFrom pat cs

/-- download_url: the manifest URL with everything from the Manifest path
component onwards removed. -/
def downloadUrlOf (url : String) : String :=
  (cutFrom "Manifest".toList url.toList).asString

/-- Parse an unsigned decimal literal (digits with an optional fractional
part) as Python float() does on the values the manifest dialect produces;
none models a ValueError.  Signs, exponents and whitespace do not occur
in the dialect and are modelled as parse failures. -/
def parseDecimal (cs : List Char) : Option ℚ :=
  let ip := cs.takeWhile (fun c => c ≠ '.')
  match cs.dropWhile (fun c => c ≠ '.') with
  | [] => (digitsToNat ip).map (fun n => (n : ℚ))
  | _ :: fp =>
    if fp.contains '.' then none
    else if ip.isEmpty && fp.isEmpty then none
    else
      match (if ip.isEmpty then some 0 else digitsToNat ip),
            (if fp.isEmpty then some 0 else digitsToNat fp) with
      | some i, some f => some ((i : ℚ) + (f : ℚ) / (10 : ℚ) ^ fp.length)
      | _, _ => none

/-- The duration encoded by an EXTINF line: the text between the first and
second colon, truncated at the first comma, parsed as a float —
float(line.split(colon)[1].split(comma)[0]) in the source. -/
def extinfValue (line : String) : Option ℚ :=
  parseDecimal ((((line.toList.dropWhile (fun c => c ≠ ':')).drop 1).takeWhile
      (fun c => c ≠ ':')).takeWhile (fun c => c ≠ ','))

/-- Evaluate f over a list, failing as soon as one element fails, as the
source's list comprehension does when float() raises. -/
def mapOpt {α β : Type} (f : α → Option β) : List α → Option (List β)
  | [] => some []
  | a :: as =>
    match f a, mapOpt f as with
    | some b, some bs => some (b :: bs)
    | _, _ => none

/-- self.paths: the download URL prefixed to every Fragments line. -/
def fragmentPaths (text url : String) : List String :=
  ((manifestLines text).filter (fun l => strStarts l "Fragments")).map
    (fun l => downloadUrlOf url ++ l)

/-- self.times: the parsed EXTINF durations with an implicit leading 0. -/
def extinfTimes (text : String) : Option (List ℚ) :=
  (mapOpt extinfValue ((manifestLines text).filter (fun l => strStarts l "#EXTINF:"))).map
    (fun ds => 0 :: ds)

/-- The catalog state built by Downloader.__init__ from the fetched
terminal manifest text: self.paths, self.times and self.duration, where
the limit applies whenever it is nonzero (Python float truthiness). -/
def downloaderInit (text url : String) (limit : ℚ) :
    Option (List String × List ℚ × ℚ) :=
  match extinfTimes text with
  | none => none
  | some ts =>
    some (fragmentPaths text url, ts, if limit ≠ 0 then min ts.sum limit else ts.sum)

/-- C4: for a terminal manifest whose EXTINF values parse to ds,
total_duration is the exact sum of the parsed durations when the time
limit is 0, and min(sum, limit) when a positive limit is given; the
parsed duration sequence carries an implicit leading 0 offset, and the
fragment path sequence does not depend on the limit at all. -/
theorem totalDuration_spec (text url : String) (limit : ℚ) (ds : List ℚ)
    (hp : mapOpt extinfValue ((manifestLines text).filter (fun l => strStarts l "#EXTINF:"))
        = some ds) :
    extinfTimes text = some (0 :: ds)
      ∧ (limit = 0 → downloaderInit text url limit
          = some (fragmentPaths text url, 0 :: ds, ds.sum))
      ∧ (0 < limit → downloaderInit text url limit
          = some (fragmentPaths text url, 0 :: ds, min ds.sum limit))
      ∧ ∀ l₁ l₂ : ℚ, (downloaderInit text url l₁).map (fun s => s.1)
          = (downloaderInit text url l₂).map (fun s => s.1) := by
  have ht : extinfTimes text = some (0 :: ds) := by simp [extinfTimes, hp]
  refine ⟨ht, ?_, ?_, ?_⟩
  · intro h0
    subst h0
    simp [downloaderInit, ht]
  · intro hpos
    have hne : limit ≠ 0 := ne_of_gt hpos
    simp [downloaderInit, ht, hne]
  · intro l₁ l₂
    simp [downloaderInit, ht]

/-- Witness for C4 on a concrete two-fragment manifest with limit 5. -/
theorem totalDuration_spec_witness :
    mapOpt extinfValue ((manifestLines "#EXTINF:2.0,x\r\nFragments(a)\n#EXTINF:3.5,\nFragments(b)").filter
        (fun l => strStarts l "#EXTINF:")) = some [2, 7/2]
      ∧ downloaderInit "#EXTINF:2.0,x\r\nFragments(a)\n#EXTINF:3.5,\nFragments(b)"
          "http://h/v/Manifest(m3u8)" 5
        = some (fragmentPaths "#EXTINF:2.0,x\r\nFragments(a)\n#EXTINF:3.5,\nFragments(b)"
            "http://h/v/Manifest(m3u8)", 0 :: [2, 7/2], min (([(2:ℚ), 7/2]).sum) 5)
      ∧ fragmentPaths "#EXTINF:2.0,x\r\nFragments(a)\n#EXTINF:3.5,\nFragments(b)"
          "http://h/v/Manifest(m3u8)"
        = ["http://h/v/Fragments(a)", "http://h/v/Fragments(b)"]
      ∧ min (([(2:ℚ), 7/2]).sum) 5 = 5 := by
  have hlines : (manifestLines "#EXTINF:2.0,x\r\nFragments(a)\n#EXTINF:3.5,\nFragments(b)").filter
      (fun l => strStarts l "#EXTINF:") = ["#EXTINF:2.0,x", "#EXTINF:3.5,"] := by decide
  have hv1 : extinfValue "#EXTINF:2.0,x" = some 2 := by
    simp +decide [extinfValue, parseDecimal, digitsToNat, charDigit]
  have hv2 : extinfValue "#EXTINF:3.5," = some (7/2) := by
    simp +decide [extinfValue, parseDecimal, digitsToNat, charDigit]
    norm_num
  have hp : mapOpt extinfValue ((manifestLines "#EXTINF:2.0,x\r\nFragments(a)\n#EXTINF:3.5,\nFragments(b)").filter
      (fun l => strStarts l "#EXTINF:")) = some [2, 7/2] := by
    rw [hlines]
    simp [mapOpt, hv1, hv2]
  refine ⟨hp, ?_, by decide, by norm_num⟩
  exact (totalDuration_spec "#EXTINF:2.0,x\r\nFragments(a)\n#EXTINF:3.5,\nFragments(b)"
    "http://h/v/Manifest(m3u8)" 5 [2, 7/2] hp).2.2.1 (by norm_num)

/-! ### Decimal rendering of integers (Python str / f-string formatting) -/

/-- Decimal digits of n, least significant first. -/
def natDigits : ℕ → List ℕ
  | 0 => []
  | n+1 => ((n+1) % 10) :: natDigits ((n+1) / 10)
decreasing_by exact Nat.div_lt_self (Nat.succ_pos n) (by norm_num)

/-- Python str(n) for a nonnegative int: its decimal representation, as
interpolated by the source's f-strings. -/
def decimalRepr (n : ℕ) : String :=
  if n = 0 then "0"
  else ((natDigits n).reverse.map (fun d => Char.ofNat (48 + d))).asString

/-- Value of a least-significant-first digit list. -/
def lsdVal : List ℕ → ℕ
  | [] => 0
  | d :: ds => d + 10 * lsdVal ds

lemma natDigits_lt : ∀ n, ∀ d ∈ natDigits n, d < 10 := by
  intro n
  induction n using Nat.strong_induction_on with
  | _ n ih =>
    cases n with
    | zero => intro d hd; simp [natDigits] at hd
    | succ m =>
      intro d hd
      simp only [natDigits] at hd
      rcases List.mem_cons.mp hd with rfl | hd
      · exact Nat.mod_lt _ (by norm_num)
      · exact ih ((m + 1) / 10) (Nat.div_lt_self (Nat.succ_pos m) (by norm_num)) d hd

lemma lsdVal_natDigits : ∀ n, lsdVal (natDigits n) = n := by
  intro n
  induction n using Nat.strong_induction_on with
  | _ n ih =>
    cases n with
    | zero => simp [natDigits, lsdVal]
    | succ m =>
      simp only [natDigits, lsdVal]
      rw [ih ((m + 1) / 10) (Nat.div_lt_self (Nat.succ_pos m) (by norm_num))]
      omega

lemma natDigits_ne_nil {n : ℕ} (hn : n ≠ 0) : natDigits n ≠ [] := by
  cases n with
  | zero => omega
  | succ m => simp [natDigits]

lemma charDigit_ofNat {d : ℕ} (hd : d < 10) : charDigit (Char.ofNat (48 + d)) = some d := by
  interval_cases d <;> decide

lemma isDigit_ofNat {d : ℕ} (hd : d < 10) : (Char.ofNat (48 + d)).isDigit = true := by
  interval_cases d <;> decide

lemma foldlM_digits (l : List ℕ) (hl : ∀ d ∈ l, d < 10) :
    ∀ a : ℕ, List.foldlM (fun a c => (charDigit c).map (fun d => a * 10 + d)) a
        (l.map (fun d => Char.ofNat (48 + d)))
      = some (l.foldl (fun a d => a * 10 + d) a) := by
  induction l with
  | nil => intro a; simp
  | cons d l ih =>
    intro a
    have hd : d < 10 := hl d (by simp)
    have hcd := charDigit_ofNat hd
    simp [List.foldlM_cons, hcd, ih (fun x hx => hl x (by simp [hx]))]

lemma foldl_msd : ∀ (l : List ℕ) (a : ℕ),
    (l.reverse).foldl (fun a d => a * 10 + d) a = a * 10 ^ l.length + lsdVal l := by
  intro l
  induction l with
  | nil => intro a; simp [lsdVal]
  | cons d l ih =>
    intro a
    simp only [List.reverse_cons, List.foldl_append, ih, lsdVal, List.length_cons,
      List.foldl_cons, List.foldl_nil]
    ring

lemma digitsToNat_map (l : List ℕ) (hl : ∀ d ∈ l, d < 10) (hne : l ≠ []) :
    digitsToNat (l.map (fun d => Char.ofNat (48 + d)))
      = some (l.foldl (fun a d => a * 10 + d) 0) := by
  have hmapne : l.map (fun d => Char.ofNat (48 + d)) ≠ [] := by
    simpa using hne
  rw [digitsToNat, if_neg (by simpa [List.isEmpty_iff] using hmapne)]
  exact foldlM_digits l hl 0

lemma digitsToNat_decimalRepr (n : ℕ) : digitsToNat (decimalRepr n).toList = some n := by
  rcases Nat.eq_zero_or_pos n with rfl | hn
  · decide
  · have hne : n ≠ 0 := by omega
    have hlist : (decimalRepr n).toList
        = (natDigits n).reverse.map (fun d => Char.ofNat (48 + d)) := by
      simp [decimalRepr, hne]
      rfl
    rw [hlist]
    have hl : ∀ d ∈ (natDigits n).reverse, d < 10 :=
      fun d hd => natDigits_lt n d (List.mem_reverse.mp hd)
    have hrne : (natDigits n).reverse ≠ [] := by
      simpa using natDigits_ne_nil hne
    rw [digitsToNat_map _ hl hrne, foldl_msd (natDigits n) 0]
    simp [lsdVal_natDigits n]

/-! ### Downloader.get_quality (lines 239-256) -/

lemma strToList_append (s t : String) : (s ++ t).toList = s.toList ++ t.toList := by
  cases s
  cases t
  rfl

/-- The bitrate parsed from a QualityLevels line: int() of the line with
the leading QualityLevels( and everything from the first closing paren
onwards removed by re.sub.  On entry lines of the vendor dialect this is
the decimal bitrate; on any other shape Python int() raises ValueError,
modelled by none. -/
def extractBitrate (line : String) : Option ℕ :=
  if strStarts line "QualityLevels(" then
    digitsToNat ((line.toList.drop 14).takeWhile (fun c => c ≠ ')'))
  else none

/-- The f-string needle the source matches lines against:
QualityLevels(quality)/Manifest. -/
def qualityNeedle (q : ℕ) : String :=
  "QualityLevels(" ++ decimalRepr q ++ ")/Manifest"

/-- Python sep.join rendered with the message's separator, newline plus
two spaces. -/
def joinWithIndent : List String → String
  | [] => ""
  | [q] => q
  | q :: qs => q ++ "\n  " ++ joinWithIndent qs

/-- The ArgumentError message raised by get_quality: the available
bitrates sorted ascending, rendered and joined, after the fixed text. -/
def mkQualityMsg (qs : List ℕ) : String :=
  "Incorrect quality level. The available quality levels are:\n  " ++
    joinWithIndent ((qs.insertionSort (fun a b => a ≤ b)).map decimalRepr)

/-- Python re.sub of a final slash-plus-nonslash-run by slash ++ repl:
replace the URL's last path segment by repl; with no such segment (no
slash, or a trailing slash) the URL is returned unchanged. -/
def replaceLastSeg (url repl : String) : String :=
  let rev := url.toList.reverse
  let seg := rev.takeWhile (fun c => c ≠ '/')
  if seg.length = 0 ∨ seg.length = url.toList.length then url
  else ((rev.drop (seg.length + 1)).reverse ++ '/' :: repl.toList).asString

/-- The scan of get_quality over the fetched quality manifest lines
(fetch at line 246, scan at 248-256), with the running list of available
bitrates.  some (.ok u) models returning the rewritten URL, some
(.error msg) models raising ArgumentError with the enumerating message,
and none models the ValueError from int() on a malformed line. -/
def getQualityAux (url : String) (quality : ℕ) :
    List String → List ℕ → Option (Except String String)
  | [], acc => some (.error (mkQualityMsg acc))
  | line :: rest, acc =>
    if strStarts line "QualityLevels" then
      match extractBitrate line with
      | none => none
      | some b =>
        if strStarts line (qualityNeedle quality) then
          some (.ok (replaceLastSeg url line))
        else getQualityAux url quality rest (acc ++ [b])
    else getQualityAux url quality rest acc

/-- Downloader.get_quality on the fetched manifest's lines. -/
def getQuality (lines : List String) (url : String) (quality : ℕ) :
    Option (Except String String) :=
  getQualityAux url quality lines []

/-- All bitrates listed by the manifest's QualityLevels lines, in order. -/
def availableBitrates (lines : List String) : List ℕ :=
  lines.filterMap (fun l => if strStarts l "QualityLevels" then extractBitrate l else none)

/-- A well-formed quality entry of the vendor dialect: the literal
QualityLevels( then the decimal bitrate then )/Manifest then the rest of
the entry's manifest reference. -/
def WFQ (line : String) : Prop :=
  ∃ (b : ℕ) (rest : String),
    line = "QualityLevels(" ++ decimalRepr b ++ ")/Manifest" ++ rest

lemma decimalRepr_isDigit (n : ℕ) : ∀ c ∈ (decimalRepr n).toList, c.isDigit = true := by
  rcases eq_or_ne n 0 with rfl | hne
  · intro c hc
    simp [decimalRepr] at hc
    subst hc
    decide
  · have hlist : (decimalRepr n).toList
        = (natDigits n).reverse.map (fun d => Char.ofNat (48 + d)) := by
      simp [decimalRepr, hne]
      rfl
    rw [hlist]
    intro c hc
    obtain ⟨d, hd, rfl⟩ := List.mem_map.mp hc
    exact isDigit_ofNat (natDigits_lt n d (List.mem_reverse.mp hd))

lemma isDigit_ne_rparen {c : Char} (h : c.isDigit = true) : c ≠ ')' := by
  intro hc
  subst hc
  exact absurd h (by decide)

lemma takeWhile_all_stop {p : Char → Bool} :
    ∀ (l₁ : List Char) (x : Char) (l₂ : List Char),
      (∀ c ∈ l₁, p c = true) → p x = false →
      (l₁ ++ x :: l₂).takeWhile p = l₁ := by
  intro l₁
  induction l₁ with
  | nil =>
    intro x l₂ _ hx
    simp [List.takeWhile_cons, hx]
  | cons c cs ih =>
    intro x l₂ hall hx
    have hc : p c = true := hall c (by simp)
    simp [List.takeWhile_cons, hc, ih x l₂ (fun y hy => hall y (by simp [hy])) hx]

lemma needle_toList (q : ℕ) :
    (qualityNeedle q).toList
      = "QualityLevels(".toList ++ (decimalRepr q).toList ++ ')' :: "/Manifest".toList := by
  rw [qualityNeedle, strToList_append, strToList_append]
  rw [show (")/Manifest").toList = ')' :: "/Manifest".toList from rfl]

lemma wfq_toList {line : String} (h : WFQ line) :
    ∃ (b : ℕ) (rest : List Char),
      line.toList = "QualityLevels(".toList ++ (decimalRepr b).toList
          ++ ')' :: "/Manifest".toList ++ rest
        ∧ extractBitrate line = some b := by
  obtain ⟨b, rest, rfl⟩ := h
  refine ⟨b, rest.toList, ?_, ?_⟩
  · rw [strToList_append, strToList_append, strToList_append]
    rw [show (")/Manifest").toList = ')' :: "/Manifest".toList from rfl]
  · have hlist : ("QualityLevels(" ++ decimalRepr b ++ ")/Manifest" ++ rest).toList
        = "QualityLevels(".toList ++ ((decimalRepr b).toList
            ++ ')' :: ("/Manifest".toList ++ rest.toList)) := by
      rw [strToList_append, strToList_append, strToList_append]
      rw [show (")/Manifest").toList = ')' :: "/Manifest".toList from rfl]
      simp
    have hstarts : strStarts ("QualityLevels(" ++ decimalRepr b ++ ")/Manifest" ++ rest)
        "QualityLevels(" = true := by
      rw [strStarts, leadsWith_iff]
      exact ⟨_, hlist⟩
    rw [extractBitrate, if_pos hstarts, hlist]
    have hdrop : ("QualityLevels(".toList
        ++ ((decimalRepr b).toList ++ ')' :: ("/Manifest".toList ++ rest.toList))).drop 14
        = (decimalRepr b).toList ++ ')' :: ("/Manifest".toList ++ rest.toList) := by
      rw [show (14 : ℕ) = "QualityLevels(".toList.length by decide]
      exact List.drop_left _ _
    rw [hdrop]
    rw [show ((decimalRepr b).toList ++ ')' :: ("/Manifest".toList ++ rest.toList)).takeWhile
          (fun c => c ≠ ')')
        = (decimalRepr b).toList from takeWhile_all_stop _ _ _
          (fun c hc => by simp [isDigit_ne_rparen (decimalRepr_isDigit b c hc)])
          (by simp)]
    exact digitsToNat_decimalRepr b

lemma digit_eq_of_append :
    ∀ (A B u v : List Char),
      (∀ c ∈ A, c.isDigit = true) → (∀ c ∈ B, c.isDigit = true) →
      A ++ ')' :: u = B ++ ')' :: v → A = B := by
  intro A
  induction A with
  | nil =>
    intro B u v _ hB h
    cases B with
    | nil => rfl
    | cons b B' =>
      injection h with h1 h2
      have hb := hB b (by simp)
      rw [← h1] at hb
      exact absurd hb (by decide)
  | cons a A' ih =>
    intro B u v hA hB h
    cases B with
    | nil =>
      injection h with h1 h2
      have ha := hA a (by simp)
      rw [h1] at ha
      exact absurd ha (by decide)
    | cons b B' =>
      injection h with h1 h2
      rw [h1, ih B' u v (fun c hc => hA c (by simp [hc])) (fun c hc => hB c (by simp [hc])) h2]

lemma decimalRepr_inj {b q : ℕ} (h : (decimalRepr b).toList = (decimalRepr q).toList) :
    b = q := by
  have hb := digitsToNat_decimalRepr b
  have hq := digitsToNat_decimalRepr q
  rw [h, hq] at hb
  exact ((Option.some.injEq q b).mp hb).symm

lemma ql_of_needle {line : String} {q : ℕ}
    (h : strStarts line (qualityNeedle q) = true) :
    strStarts line "QualityLevels" = true := by
  rw [strStarts] at h ⊢
  have hsplit : (qualityNeedle q).toList
      = "QualityLevels".toList
          ++ ('(' :: (decimalRepr q).toList ++ ')' :: "/Manifest".toList) := by
    rw [needle_toList, show "QualityLevels(".toList = "QualityLevels".toList ++ ['('] by decide]
    simp
  rw [hsplit] at h
  exact leadsWith_mono h

lemma needle_starts (q : ℕ) (rest : String) :
    strStarts ("QualityLevels(" ++ decimalRepr q ++ ")/Manifest" ++ rest)
      (qualityNeedle q) = true := by
  rw [strStarts,
    show ("QualityLevels(" ++ decimalRepr q ++ ")/Manifest" ++ rest)
      = qualityNeedle q ++ rest from rfl,
    strToList_append]
  exact leadsWith_of_append _ _

lemma needle_match_of_wfq {line : String} (hw : WFQ line) {q : ℕ}
    (hm : strStarts line (qualityNeedle q) = true) :
    ∃ rest, line = "QualityLevels(" ++ decimalRepr q ++ ")/Manifest" ++ rest := by
  obtain ⟨b, rest, rfl⟩ := hw
  obtain ⟨t, ht⟩ := (leadsWith_iff _ _).mp hm
  rw [needle_toList] at ht
  have hline : ("QualityLevels(" ++ decimalRepr b ++ ")/Manifest" ++ rest).toList
      = "QualityLevels(".toList
          ++ ((decimalRepr b).toList ++ ')' :: ("/Manifest".toList ++ rest.toList)) := by
    rw [strToList_append, strToList_append, strToList_append]
    rw [show (")/Manifest").toList = ')' :: "/Manifest".toList from rfl]
    simp
  rw [hline] at ht
  rw [show "QualityLevels(".toList ++ (decimalRepr q).toList ++ ')' :: "/Manifest".toList ++ t
      = "QualityLevels(".toList ++ ((decimalRepr q).toList ++ ')' :: ("/Manifest".toList ++ t))
      by simp] at ht
  have hmid := List.append_cancel_left ht
  have hb : b = q :=
    decimalRepr_inj (digit_eq_of_append _ _ _ _ (decimalRepr_isDigit b)
      (decimalRepr_isDigit q) hmid)
  subst hb
  exact ⟨rest, rfl⟩

lemma getQualityAux_run (url : String) (q : ℕ) :
    ∀ (lines : List String) (acc : List ℕ),
      (∀ line ∈ lines, strStarts line "QualityLevels" = true → WFQ line) →
      getQualityAux url q lines acc
        = match lines.find? (fun l => strStarts l (qualityNeedle q)) with
          | some line => some (.ok (replaceLastSeg url line))
          | none => some (.error (mkQualityMsg (acc ++ availableBitrates lines))) := by
  intro lines
  induction lines with
  | nil =>
    intro acc _
    simp [getQualityAux, availableBitrates]
  | cons line rest ih =>
    intro acc hwf
    by_cases hql : strStarts line "QualityLevels" = true
    · obtain ⟨b, restc, _, hext⟩ := wfq_toList (hwf line (by simp) hql)
      by_cases hm : strStarts line (qualityNeedle q) = true
      · simp [getQualityAux, hql, hext, hm, List.find?_cons_of_pos]
      · have hrec := ih (acc ++ [b]) (fun l hl hs => hwf l (by simp [hl]) hs)
        have hmfalse : strStarts line (qualityNeedle q) = false := by
          simpa using hm
        have hfind : List.find? (fun l => strStarts l (qualityNeedle q)) (line :: rest)
            = List.find? (fun l => strStarts l (qualityNeedle q)) rest :=
          List.find?_cons_of_neg rest (by simpa using hm)
        simp only [getQualityAux, hql, if_true, hext, hmfalse, Bool.false_eq_true,
          if_false, hrec, availableBitrates, List.filterMap_cons, List.append_assoc,
          List.singleton_append]
        rw [hfind]
    · have hqlfalse : strStarts line "QualityLevels" = false := by simpa using hql
      have hm : strStarts line (qualityNeedle q) = false := by
        by_contra hc
        exact hql (ql_of_needle (by simpa using hc))
      have hfind : List.find? (fun l => strStarts l (qualityNeedle q)) (line :: rest)
          = List.find? (fun l => strStarts l (qualityNeedle q)) rest :=
        List.find?_cons_of_neg rest (by simp [hm])
      have hrec := ih acc (fun l hl hs => hwf l (by simp [hl]) hs)
      simp only [getQualityAux, hqlfalse, Bool.false_eq_true, if_false, hrec,
        availableBitrates, List.filterMap_cons]
      rw [hfind]

/-- C2: for a quality-listing manifest whose QualityLevels entries are
well-formed vendor-dialect entries, get_quality returns the base URL with
its last path segment rewritten to the first listed entry whose bitrate
equals the requested quality if and only if such an entry is listed;
otherwise it raises ArgumentError whose deterministic message enumerates
all available bitrates sorted in ascending order. -/
theorem getQuality_spec (lines : List String) (url : String) (q : ℕ)
    (hwf : ∀ line ∈ lines, strStarts line "QualityLevels" = true → WFQ line) :
    ((∃ line ∈ lines, ∃ rest,
        line = "QualityLevels(" ++ decimalRepr q ++ ")/Manifest" ++ rest)
      ↔ ∃ line, lines.find? (fun l => strStarts l (qualityNeedle q)) = some line
          ∧ getQuality lines url q = some (.ok (replaceLastSeg url line)))
    ∧ ((¬ ∃ line ∈ lines, ∃ rest,
          line = "QualityLevels(" ++ decimalRepr q ++ ")/Manifest" ++ rest)
        → getQuality lines url q
            = some (.error (mkQualityMsg (availableBitrates lines))))
    ∧ List.Sorted (fun a b => a ≤ b)
        ((availableBitrates lines).insertionSort (fun a b => a ≤ b))
    ∧ ((availableBitrates lines).insertionSort (fun a b => a ≤ b)).Perm
        (availableBitrates lines) := by
  have hrun := getQualityAux_run url q lines [] hwf
  refine ⟨⟨?_, ?_⟩, ?_, ?_, ?_⟩
  · rintro ⟨line, hmem, rest, rfl⟩
    have hmatch := needle_starts q rest
    have hsome : (lines.find? (fun l => strStarts l (qualityNeedle q))).isSome = true :=
      List.find?_isSome.mpr ⟨_, hmem, hmatch⟩
    obtain ⟨fline, hf⟩ := Option.isSome_iff_exists.mp hsome
    refine ⟨fline, hf, ?_⟩
    rw [getQuality, hrun, hf]
  · rintro ⟨fline, hf, _⟩
    have hmem := List.mem_of_find?_eq_some hf
    have hp := List.find?_some hf
    obtain ⟨rest, hrest⟩ := needle_match_of_wfq (hwf fline hmem (ql_of_needle hp)) hp
    exact ⟨fline, hmem, rest, hrest⟩
  · intro hnone
    have hf : lines.find? (fun l => strStarts l (qualityNeedle q)) = none := by
      rcases hcase : lines.find? (fun l => strStarts l (qualityNeedle q)) with _ | fline
      · rfl
      · exfalso
        have hmem := List.mem_of_find?_eq_some hcase
        have hp := List.find?_some hcase
        obtain ⟨rest, hrest⟩ := needle_match_of_wfq (hwf fline hmem (ql_of_needle hp)) hp
        exact hnone ⟨fline, hmem, rest, hrest⟩
    rw [getQuality, hrun, hf]
    simp
  · exact List.sorted_insertionSort _ _
  · exact List.perm_insertionSort _ _

/-- Witness for C2 on the spec's example: available bitrates 1200000,
3200000, 5000000; quality 3200000 resolves to the rewritten URL, quality
9999999 fails with the ascending enumeration. -/
theorem getQuality_spec_witness :
    getQuality ["QualityLevels(1200000)/Manifest(video)",
        "QualityLevels(3200000)/Manifest(video)",
        "QualityLevels(5000000)/Manifest(video)"] "http://h/p/manifest" 3200000
      = some (.ok (replaceLastSeg "http://h/p/manifest"
          "QualityLevels(3200000)/Manifest(video)"))
    ∧ replaceLastSeg "http://h/p/manifest" "QualityLevels(3200000)/Manifest(video)"
      = "http://h/p/QualityLevels(3200000)/Manifest(video)"
    ∧ getQuality ["QualityLevels(1200000)/Manifest(video)",
        "QualityLevels(3200000)/Manifest(video)",
        "QualityLevels(5000000)/Manifest(video)"] "http://h/p/manifest" 9999999
      = some (.error (mkQualityMsg (availableBitrates
          ["QualityLevels(1200000)/Manifest(video)",
           "QualityLevels(3200000)/Manifest(video)",
           "QualityLevels(5000000)/Manifest(video)"])))
    ∧ availableBitrates ["QualityLevels(1200000)/Manifest(video)",
        "QualityLevels(3200000)/Manifest(video)",
        "QualityLevels(5000000)/Manifest(video)"] = [1200000, 3200000, 5000000]
    ∧ (([1200000, 3200000, 5000000] : List ℕ).insertionSort (fun a b => a ≤ b)
        = [1200000, 3200000, 5000000]) := by
  have hr12 : decimalRepr 1200000 = "1200000" := by
    simp [decimalRepr, natDigits]
    decide
  have hr32 : decimalRepr 3200000 = "3200000" := by
    simp [decimalRepr, natDigits]
    decide
  have hr50 : decimalRepr 5000000 = "5000000" := by
    simp [decimalRepr, natDigits]
    decide
  have hr99 : decimalRepr 9999999 = "9999999" := by
    simp [decimalRepr, natDigits]
    decide
  have hwf : ∀ line ∈ ["QualityLevels(1200000)/Manifest(video)",
      "QualityLevels(3200000)/Manifest(video)",
      "QualityLevels(5000000)/Manifest(video)"],
      strStarts line "QualityLevels" = true → WFQ line := by
    intro line hl _
    simp only [List.mem_cons, List.not_mem_nil, or_false] at hl
    rcases hl with rfl | rfl | rfl
    · exact ⟨1200000, "(video)", by rw [hr12]; decide⟩
    · exact ⟨3200000, "(video)", by rw [hr32]; decide⟩
    · exact ⟨5000000, "(video)", by rw [hr50]; decide⟩
  have hneedle32 : qualityNeedle 3200000 = "QualityLevels(3200000)/Manifest" := by
    rw [qualityNeedle, hr32]
    decide
  have hneedle99 : qualityNeedle 9999999 = "QualityLevels(9999999)/Manifest" := by
    rw [qualityNeedle, hr99]
    decide
  have h1 := getQuality_spec ["QualityLevels(1200000)/Manifest(video)",
      "QualityLevels(3200000)/Manifest(video)",
      "QualityLevels(5000000)/Manifest(video)"] "http://h/p/manifest" 3200000 hwf
  obtain ⟨fline, hf, hres⟩ := h1.1.mp ⟨"QualityLevels(3200000)/Manifest(video)",
    by simp, "(video)", by rw [hr32]; decide⟩
  have hfval : (["QualityLevels(1200000)/Manifest(video)",
      "QualityLevels(3200000)/Manifest(video)",
      "QualityLevels(5000000)/Manifest(video)"]).find?
        (fun l => strStarts l (qualityNeedle 3200000))
      = some "QualityLevels(3200000)/Manifest(video)" := by
    simp only [hneedle32]
    decide
  rw [hfval] at hf
  have hfl : fline = "QualityLevels(3200000)/Manifest(video)" := by
    injection hf with h
    exact h.symm
  subst hfl
  have h2 := (getQuality_spec ["QualityLevels(1200000)/Manifest(video)",
      "QualityLevels(3200000)/Manifest(video)",
      "QualityLevels(5000000)/Manifest(video)"] "http://h/p/manifest" 9999999 hwf).2.1 ?hn
  case hn =>
    rintro ⟨line, hmem, rest, heq⟩
    have hst : strStarts line (qualityNeedle 9999999) = true := by
      rw [heq]
      exact needle_starts 9999999 rest
    rw [hneedle99] at hst
    simp only [List.mem_cons, List.not_mem_nil, or_false] at hmem
    rcases hmem with rfl | rfl | rfl <;> exact absurd hst (by decide)
  exact ⟨hres, by decide, h2, by decide, by decide⟩

/-! ### Downloader.get_manifest (lines 211-237) and the retry policies it
passes to trying_get -/

/-- The module constant MAX_ATTEMPTS (line 23). -/
def MAX_ATTEMPTS : ℤ := 10

/-- The module constant WAIT (line 24). -/
def WAIT : ℚ := 10

/-- A fetch request issued through trying_get, together with the retry
policy the call site passes (or lets default). -/
structure FetchReq where
  url : String
  maxAttempts : ℤ
  wait : ℚ
deriving DecidableEq, Repr

/-- The observables of the landing-page GET: the JSESSIONID cookie value
and the ugcPost video id.  Their extraction from the response cookies,
the redirected URL or the page body (get_video_id, lines 258-268) is
abstracted into this oracle. -/
structure LandingInfo where
  cookieValue : String
  videoId : String

/-- The authenticated liveUpdates API URL for a video id (line 232). -/
def apiUrl (id : String) : String :=
  "https://www.linkedin.com/voyager/api/video/liveUpdates/urn%3Ali%3AugcPost%3A" ++ id

/-- Downloader.get_manifest as a state machine over the URL shape.  net
models the landing-page GET's extracted observables; api models the JSON
navigation of the API response down to adaptiveStreams[0],
masterPlaylists[0], url; qlines models the text lines of a fetched
quality-listing manifest.  The run records every trying_get call as a
FetchReq carrying the policy used at that call site: the landing GET at
line 224 is trying_get(url) with the module defaults, the API GET at
lines 232-233 passes the caller's max_attempts and wait, and the
quality-manifest GET inside get_quality (line 246) passes
self._max_attempts and self._wait.  fuel bounds the recursion; none
models fuel exhaustion or an uncaught exception. -/
def getManifest (net : String → LandingInfo) (api : String → String)
    (qlines : String → List String) (selfA : ℤ) (selfW : ℚ) (argA : ℤ) (argW : ℚ)
    (quality : ℕ) : String → ℕ → Option (List FetchReq × Except String String)
  | _, 0 => none
  | url, fuel+1 =>
    if strHas url "/Manifest" then some ([], .ok url)
    else if strHas url "/manifest" then
      match getQuality (qlines url) url quality with
      | none => none
      | some res => some ([⟨url, selfA, selfW⟩], res)
    else
      match getManifest net api qlines selfA selfW argA argW quality
          (api (apiUrl (net url).videoId)) fuel with
      | none => none
      | some (reqs, res) =>
        some (⟨url, MAX_ATTEMPTS, WAIT⟩ :: ⟨apiUrl (net url).videoId, argA, argW⟩ :: reqs, res)

/-- C8: when resolving a landing-page URL (one containing neither
/Manifest nor /manifest), the initial GET of the landing page is always
issued with the built-in default retry policy of 10 attempts and
10-second wait, regardless of the caller-supplied policy; the subsequent
authenticated API call uses the caller-supplied policy, and a
quality-listing manifest fetch uses the stored caller-supplied policy. -/
theorem getManifest_policies (net : String → LandingInfo) (api : String → String)
    (qlines : String → List String) (selfA : ℤ) (selfW : ℚ) (argA : ℤ) (argW : ℚ)
    (quality : ℕ) (url : String) (fuel : ℕ) (reqs : List FetchReq)
    (res : Except String String)
    (hM : strHas url "/Manifest" = false) (hm : strHas url "/manifest" = false)
    (h : getManifest net api qlines selfA selfW argA argW quality url (fuel + 1)
        = some (reqs, res)) :
    reqs.take 2 = [⟨url, 10, 10⟩, ⟨apiUrl (net url).videoId, argA, argW⟩]
      ∧ ∀ (murl : String) (reqs2 : List FetchReq) (res2 : Except String String),
          strHas murl "/Manifest" = false → strHas murl "/manifest" = true →
          getManifest net api qlines selfA selfW argA argW quality murl (fuel + 1)
              = some (reqs2, res2)
          → reqs2 = [⟨murl, selfA, selfW⟩] := by
  constructor
  · simp only [getManifest, hM, hm, Bool.false_eq_true, if_false] at h
    cases hrec : getManifest net api qlines selfA selfW argA argW quality
        (api (apiUrl (net url).videoId)) fuel with
    | none => rw [hrec] at h; simp at h
    | some p =>
      obtain ⟨reqs', res'⟩ := p
      rw [hrec] at h
      simp only [Option.some.injEq, Prod.mk.injEq] at h
      rw [← h.1]
      simp [MAX_ATTEMPTS, WAIT]
  · intro murl reqs2 res2 hM2 hm2 h2
    simp only [getManifest, hM2, hm2, Bool.false_eq_true, if_false, if_true] at h2
    cases hq : getQuality (qlines murl) murl quality with
    | none => rw [hq] at h2; simp at h2
    | some r =>
      rw [hq] at h2
      simp only [Option.some.injEq, Prod.mk.injEq] at h2
      exact h2.1.symm

/-- Witness for C8: a landing URL resolved with caller policy (5, 6) and
stored policy (3, 4); the landing fetch is recorded with the default
(10, 10) policy, and a quality-listing URL records the stored policy. -/
theorem getManifest_policies_witness :
    getManifest (fun _ => ⟨"tok", "123"⟩) (fun _ => "http://cdn/x/Manifest(video)")
        (fun _ => []) 3 4 5 6 0 "http://l/post" 2
      = some ([⟨"http://l/post", 10, 10⟩, ⟨apiUrl "123", 5, 6⟩],
          .ok "http://cdn/x/Manifest(video)")
    ∧ ([(⟨"http://l/post", 10, 10⟩ : FetchReq), ⟨apiUrl "123", 5, 6⟩]).take 2
      = [⟨"http://l/post", 10, 10⟩,
          ⟨apiUrl ((fun (_ : String) => (⟨"tok", "123"⟩ : LandingInfo)) "http://l/post").videoId, 5, 6⟩]
    ∧ getManifest (fun _ => ⟨"tok", "123"⟩) (fun _ => "http://cdn/x/Manifest(video)")
        (fun _ => []) 3 4 5 6 0 "http://q/manifest" 2
      = some ([⟨"http://q/manifest", 3, 4⟩], .error (mkQualityMsg []))
    ∧ ([(⟨"http://q/manifest", 3, 4⟩ : FetchReq)] = [⟨"http://q/manifest", 3, 4⟩]) := by
  have hrun : getManifest (fun _ => ⟨"tok", "123"⟩)
      (fun _ => "http://cdn/x/Manifest(video)") (fun _ => []) 3 4 5 6 0
      "http://l/post" 2
      = some ([⟨"http://l/post", 10, 10⟩, ⟨apiUrl "123", 5, 6⟩],
          .ok "http://cdn/x/Manifest(video)") := rfl
  have hrun2 : getManifest (fun _ => ⟨"tok", "123"⟩)
      (fun _ => "http://cdn/x/Manifest(video)") (fun _ => []) 3 4 5 6 0
      "http://q/manifest" 2
      = some ([⟨"http://q/manifest", 3, 4⟩], .error (mkQualityMsg [])) := rfl
  have h := getManifest_policies (fun _ => ⟨"tok", "123"⟩)
    (fun _ => "http://cdn/x/Manifest(video)") (fun _ => []) 3 4 5 6 0
    "http://l/post" 1 [⟨"http://l/post", 10, 10⟩, ⟨apiUrl "123", 5, 6⟩]
    (.ok "http://cdn/x/Manifest(video)") (by decide) (by decide) hrun
  exact ⟨hrun, h.1, hrun2,
    h.2 "http://q/manifest" [⟨"http://q/manifest", 3, 4⟩] (.error (mkQualityMsg []))
      (by decide) (by decide) hrun2⟩
